import Mathlib

/-!
Shallow embedding of `DB::ColumnArray` (src/dbms/include/DB/Columns/ColumnArray.h).

An array column is one flat nested container (`data`, a list of elements of the
nested type) plus a sequence of cumulative offsets (`offsets`), one per row.
Offsets are `UInt64` / `size_t` values in the source, modelled as `Nat` with an
explicit reduction modulo `2 ^ 64` wherever the source performs unsigned
arithmetic.  Byte buffers (arena memory, `insertData` input) are modelled as
`List Nat`, each entry one memory byte (reduced modulo 256 when read).
The nested container's polymorphic operations (`insert`, `insertRangeFrom`,
`serializeValueIntoArena`, `compareAt`, ...) act on the flat `data` list, with
element-level behaviour (serialization, comparison, byte decoding) passed in as
parameters where the source dispatches virtually.
-/

/-- Error codes thrown by `ColumnArray` (`DB::ErrorCodes`). -/
inductive ColErr where
  | illegalColumn
  | notImplemented
  | badArguments
deriving DecidableEq

instance {ε α : Type} [DecidableEq ε] [DecidableEq α] : DecidableEq (Except ε α) :=
  fun a b =>
    match a, b with
    | .error e₁, .error e₂ =>
      match decEq e₁ e₂ with
      | isTrue h => isTrue (by rw [h])
      | isFalse h => isFalse (fun hc => h (by cases hc; rfl))
    | .ok v₁, .ok v₂ =>
      match decEq v₁ v₂ with
      | isTrue h => isTrue (by rw [h])
      | isFalse h => isFalse (fun hc => h (by cases hc; rfl))
    | .error _, .ok _ => isFalse (fun hc => Except.noConfusion hc)
    | .ok _, .error _ => isFalse (fun hc => Except.noConfusion hc)

/-- Modulus of the `UInt64` offsets / `size_t` arithmetic in the source. -/
def OFFSET_MOD : Nat := 2 ^ 64

/-- The array column: one flat nested container plus one offsets sequence.
Mirrors the two fields `data` and `offsets` of `ColumnArray`. -/
structure ColumnArray (α : Type) where
  data : List α
  offsets : List Nat
deriving DecidableEq

/-- `size()`: row count = length of the offsets sequence. -/
def ColumnArray.size (c : ColumnArray α) : Nat := c.offsets.length

/-- The value of `getOffsets().size() == 0 ? 0 : getOffsets().back()`. -/
def lastOffset (offsets : List Nat) : Nat := offsets.getLastD 0

/-- `offsetAt(i) = i == 0 ? 0 : getOffsets()[i - 1]`. -/
def ColumnArray.offsetAt (c : ColumnArray α) (i : Nat) : Nat :=
  if i = 0 then 0 else c.offsets.getD (i - 1) 0

/-- `sizeAt(i) = i == 0 ? getOffsets()[0] : getOffsets()[i] - getOffsets()[i - 1]`. -/
def ColumnArray.sizeAt (c : ColumnArray α) (i : Nat) : Nat :=
  if i = 0 then c.offsets.getD 0 0 else c.offsets.getD i 0 - c.offsets.getD (i - 1) 0

/-- The elements of row `i`: the slice `[offsetAt i, offsetAt i + sizeAt i)` of the
nested container, as read by `operator[]` / `get`. -/
def ColumnArray.rowAt (c : ColumnArray α) (i : Nat) : List α :=
  (c.data.drop (c.offsetAt i)).take (c.sizeAt i)

/-- `getOffsets().push_back((getOffsets().size() == 0 ? 0 : getOffsets().back()) + k)`,
with the `UInt64` addition reduced modulo `2 ^ 64`. -/
def pushOffset (offsets : List Nat) (k : Nat) : List Nat :=
  offsets ++ [(lastOffset offsets + k) % OFFSET_MOD]

/-- The offsets invariant: the offsets are non-decreasing and the last offset
(0 for an empty column) equals the nested container's length. -/
def offsetsInv (c : ColumnArray α) : Prop :=
  List.Chain' (· ≤ ·) c.offsets ∧ lastOffset c.offsets = c.data.length

/-- Structurally recursive decision procedure for the non-decrease part of the
invariant (kernel-reducible, unlike the generic instance). -/
def decChain' : (l : List Nat) → Decidable (List.Chain' (· ≤ ·) l)
  | [] => isTrue (by simp)
  | [_] => isTrue (by simp)
  | a :: b :: rest =>
    match Nat.decLe a b, decChain' (b :: rest) with
    | isTrue h1, isTrue h2 => isTrue (List.chain'_cons.mpr ⟨h1, h2⟩)
    | isFalse h1, _ => isFalse (fun hc => h1 (List.chain'_cons.mp hc).1)
    | _, isFalse h2 => isFalse (fun hc => h2 (List.chain'_cons.mp hc).2)

instance (c : ColumnArray α) : Decidable (offsetsInv c) :=
  @instDecidableAnd _ _ (decChain' c.offsets) (Nat.decEq _ _)

/-- `insert(const Field & x)`: appends each element of the array value to the
nested container, then pushes one new offset. -/
def ColumnArray.insert (c : ColumnArray α) (x : List α) : ColumnArray α :=
  { data := c.data ++ x, offsets := pushOffset c.offsets x.length }

/-- `insertFrom(src, n)`: bulk-copies row `n`'s element range from `src`'s nested
container (`insertRangeFrom(src.getData(), offset, size)`), then pushes one new
offset for `size = src.sizeAt(n)` elements. -/
def ColumnArray.insertFrom (c : ColumnArray α) (src : ColumnArray α) (n : Nat) : ColumnArray α :=
  { data := c.data ++ (src.data.drop (src.offsetAt n)).take (src.sizeAt n),
    offsets := pushOffset c.offsets (src.sizeAt n) }

/-- `insertDefault()`: pushes `getOffsets().size() == 0 ? 0 : getOffsets().back()`;
the nested container is untouched. -/
def ColumnArray.insertDefault (c : ColumnArray α) : ColumnArray α :=
  { data := c.data, offsets := c.offsets ++ [lastOffset c.offsets] }

/-- `insertData(pos, length)`: refuses a non-fixed-width nested container
(`NOT_IMPLEMENTED`); otherwise slices the input into `length / w` full chunks of
the field width `w = sizeOfField()`, appends each decoded chunk to the nested
container, throws `BAD_ARGUMENTS` when a remainder is left (`pos != end`), and
finally pushes one new offset for the chunk count.  `decodeElem` stands for the
nested container's own `insertData` on one `w`-byte chunk. -/
def ColumnArray.insertData (c : ColumnArray α) (isFixed : Bool) (w : Nat)
    (decodeElem : List Nat → α) (bytes : List Nat) : Except ColErr (ColumnArray α) :=
  if !isFixed then .error .notImplemented
  else
    let elems := bytes.length / w
    let newData :=
      c.data ++ (List.range elems).map (fun i => decodeElem ((bytes.drop (i * w)).take w))
    if bytes.length % w ≠ 0 then .error .badArguments
    else .ok { data := newData, offsets := pushOffset c.offsets elems }

/-- Little-endian byte encoding of a machine integer, `k` bytes wide: the
`memcpy(pos, &array_size, sizeof(array_size))` of the source on a little-endian
native word. -/
def toLEBytes : Nat → Nat → List Nat
  | 0, _ => []
  | k + 1, n => n % 256 :: toLEBytes k (n / 256)

/-- Little-endian byte decoding; each memory byte is reduced modulo 256. -/
def fromLEBytes : List Nat → Nat
  | [] => 0
  | b :: bs => b % 256 + 256 * fromLEBytes bs

/-- Concatenation of the per-element serialized bytes of a row, in row order. -/
def serRow (serElem : α → List Nat) : List α → List Nat
  | [] => []
  | a :: as => serElem a ++ serRow serElem as

/-- `serializeValueIntoArena(n, arena, begin)`: writes `sizeAt n` as a native
unsigned integer (8 little-endian bytes), then each element of row `n` in order;
the returned `StringRef` covers exactly these bytes, modelled as the byte list
itself. -/
def ColumnArray.serializeValueIntoArena (c : ColumnArray α) (serElem : α → List Nat)
    (n : Nat) : List Nat :=
  toLEBytes 8 (c.sizeAt n) ++ serRow serElem (c.rowAt n)

/-- The element-deserialization loop of `deserializeAndInsertFromArena`: runs the
nested container's `deserializeAndInsertFromArena` `k` times, each call appending
one element and advancing the position. -/
def deserLoop (deserElem : List Nat → Option (α × List Nat)) :
    Nat → List α → List Nat → Option (List α × List Nat)
  | 0, acc, pos => some (acc, pos)
  | k + 1, acc, pos =>
    match deserElem pos with
    | none => none
    | some (a, pos₁) => deserLoop deserElem k (acc ++ [a]) pos₁

/-- `deserializeAndInsertFromArena(pos)`: reads `array_size` from the first
`sizeof(size_t)` bytes, deserializes that many elements into the nested
container, pushes one new offset, and returns the advanced position (the unread
suffix).  Reading past the end of the buffer, or a failing nested
deserialization, is modelled as `none`. -/
def ColumnArray.deserializeAndInsertFromArena (c : ColumnArray α)
    (deserElem : List Nat → Option (α × List Nat)) (pos : List Nat) :
    Option (ColumnArray α × List Nat) :=
  if pos.length < 8 then none
  else
    match deserLoop deserElem (fromLEBytes (pos.take 8)) c.data (pos.drop 8) with
    | none => none
    | some (d, pos₁) =>
      some ({ data := d, offsets := pushOffset c.offsets (fromLEBytes (pos.take 8)) }, pos₁)

/-- `popBack(n)`: computes `nested_n = offsets.back() - offsetAt(offsets.size() - n)`
from the not-yet-shrunk offsets, pops that many elements from the nested
container, then shrinks the offsets by `n`. -/
def ColumnArray.popBack (c : ColumnArray α) (n : Nat) : ColumnArray α :=
  let nested_n := lastOffset c.offsets - c.offsetAt (c.offsets.length - n)
  { data := c.data.take (c.data.length - nested_n),
    offsets := c.offsets.take (c.offsets.length - n) }

/-- The position-by-position loop of `compareAt`: at step `i` (with `k` steps
left) compares `dl[bL + i]` with `dr[bR + i]` via the nested comparator and
returns the first nonzero result, or 0 when all `min_size` positions agree. -/
def compareAtLoop [Inhabited α] (f : α → α → Int) (dl dr : List α) (bL bR : Nat) :
    Nat → Nat → Int
  | _, 0 => 0
  | i, k + 1 =>
    let res := f (dl.getD (bL + i) default) (dr.getD (bR + i) default)
    if res = 0 then compareAtLoop f dl dr bL bR (i + 1) k else res

/-- The tail of `compareAt`:
`lhs_size < rhs_size ? -1 : (lhs_size == rhs_size ? 0 : 1)`. -/
def lengthCmp (a b : Nat) : Int :=
  if a < b then -1 else if a = b then 0 else 1

/-- `compareAt(n, m, rhs, nan_direction_hint)`: compares the first
`min(sizeAt n, rhs.sizeAt m)` element pairs with the nested container's
`compareAt` (the hint passed through unchanged), returning the first nonzero
result; on a tie the shorter row is smaller, equal lengths compare equal. -/
def ColumnArray.compareAt [Inhabited α] (c : ColumnArray α) (n m : Nat)
    (rhs : ColumnArray α) (cmp : Int → α → α → Int) (nan_direction_hint : Int) : Int :=
  let lhs_size := c.sizeAt n
  let rhs_size := rhs.sizeAt m
  let min_size := min lhs_size rhs_size
  let r := compareAtLoop (cmp nan_direction_hint) c.data rhs.data
    (c.offsetAt n) (rhs.offsetAt m) 0 min_size
  if r ≠ 0 then r else lengthCmp lhs_size rhs_size

/-- A `StringRef`: a pointer (address, 0 for `nullptr`) and a byte count.
`StringRef()` is `⟨0, 0⟩`. -/
structure StringRefM where
  data : Nat
  size : Nat
deriving DecidableEq

/-- `getDataAt(n)`: the empty `StringRef()` for a zero-length row; otherwise the
span from the first element's address to the end of the last element, where
`accessElem i` stands for `getData().getDataAtWithTerminatingZero(i)`. -/
def ColumnArray.getDataAt (c : ColumnArray α) (accessElem : Nat → StringRefM)
    (n : Nat) : StringRefM :=
  let array_size := c.sizeAt n
  if array_size = 0 then ⟨0, 0⟩
  else
    let first := accessElem (c.offsetAt n)
    let last := accessElem (c.offsets.getD n 0 - 1)
    ⟨first.data, last.data + last.size - first.data⟩

/-- `cloneResized(size)`: starts from an empty clone; for `size > 0` copies the
first `count = min(this->size(), size)` offsets, pads with the last copied
offset up to `size` entries, and then — as written in the source — calls
`getData().insertRangeFrom(getData(), 0, count)`, i.e. copies the first `count`
ELEMENTS of the nested container (`count` is the retained row count). -/
def ColumnArray.cloneResized (c : ColumnArray α) (size : Nat) : ColumnArray α :=
  if size = 0 then { data := [], offsets := [] }
  else
    let count := min c.size size
    let base := c.offsets.take count
    { data := c.data.take count,
      offsets := base ++ List.replicate (size - count) (lastOffset base) }

/-- Dynamic type tags for a column handle passed as the offsets column; the
constructor's `typeid_cast<ColumnOffsets_t *>` succeeds exactly on
`ColumnVector<UInt64>`. -/
inductive ColKind where
  | uint64
  | uint32
  | int64
  | str
  | generic
deriving DecidableEq

/-- A raw column handle offered as the offsets column: its dynamic type tag and
its payload. -/
structure RawColumn where
  kind : ColKind
  vals : List Nat
deriving DecidableEq

/-- The `ColumnArray(nested_column, offsets_column)` constructor: with no offsets
column a fresh empty offsets sequence is created; otherwise the handle must be a
`ColumnVector<UInt64>`, else `ILLEGAL_COLUMN` is thrown. -/
def mkColumnArray (nested : List α) (offsets_column : Option RawColumn) :
    Except ColErr (ColumnArray α) :=
  match offsets_column with
  | none => .ok { data := nested, offsets := [] }
  | some oc =>
    if oc.kind = ColKind.uint64 then .ok { data := nested, offsets := oc.vals }
    else .error .illegalColumn

/-- A column handle that may be a lazily-constant representation
(`ColumnConst`): either fully materialized elements or a constant value with a
repetition count. -/
inductive ColRep (α : Type) where
  | full (elems : List α)
  | const (n : Nat) (v : α)
deriving DecidableEq

/-- `IColumn::convertToFullColumnIfConst`: `nullptr` (`none`) on an already-full
column, the materialized expansion on a constant column. -/
def ColRep.convertToFullColumnIfConst : ColRep α → Option (ColRep α)
  | .full _ => none
  | .const n v => some (.full (List.replicate n v))

/-- Whether a handle is the lazily-constant representation. -/
def ColRep.isConst : ColRep α → Bool
  | .full _ => false
  | .const _ _ => true

/-- An array column at the handle level: its nested-container handle and its
offsets-column handle, either of which may be a constant representation. -/
structure ColumnArrayH (α : Type) where
  data : ColRep α
  offsets : ColRep Nat
deriving DecidableEq

/-- `ColumnArray::convertToFullColumnIfConst`: materializes whichever of the two
parts is constant and returns `std::make_shared<ColumnArray>(new_data,
new_offsets)` — a freshly allocated wrapper object on EVERY path (the source
never returns its own handle).  The `Bool` of the result records that a fresh
wrapper was allocated; it is `true` unconditionally, faithfully to the
unconditional `make_shared` in the source. -/
def ColumnArrayH.convertToFullColumnIfConst (c : ColumnArrayH α) : ColumnArrayH α × Bool :=
  let new_data := (c.data.convertToFullColumnIfConst).getD c.data
  let new_offsets := (c.offsets.convertToFullColumnIfConst).getD c.offsets
  ({ data := new_data, offsets := new_offsets }, true)

/-- Spec-side definition (from the spec's words, for comparison with
`compareAt`): lexicographic comparison of two rows position by position; on a
tie of all shared positions the shorter row is smaller. -/
def lexCmpSpec (f : α → α → Int) : List α → List α → Int
  | [], [] => 0
  | [], _ :: _ => -1
  | _ :: _, [] => 1
  | a :: as, b :: bs => if f a b = 0 then lexCmpSpec f as bs else f a b

/-- The element-pair view of the `compareAt` loop: first nonzero comparator
result over matching positions, 0 when all pairs (up to the shorter list) agree. -/
def pairLoop (f : α → α → Int) : List α → List α → Int
  | a :: as, b :: bs => if f a b = 0 then pairLoop f as bs else f a b
  | _, _ => 0

/-- What every row-appending operation guarantees: exactly one new offset equal
to the previous last offset plus the appended element count, the nested
container grown by that count, and the offsets invariant preserved. -/
def appendsOneOffset (c c' : ColumnArray α) (k : Nat) : Prop :=
  c'.offsets = c.offsets ++ [lastOffset c.offsets + k] ∧
  c'.data.length = c.data.length + k ∧
  offsetsInv c'

instance (c c' : ColumnArray α) (k : Nat) : Decidable (appendsOneOffset c c' k) :=
  inferInstanceAs (Decidable (c'.offsets = c.offsets ++ [lastOffset c.offsets + k] ∧
    c'.data.length = c.data.length + k ∧ offsetsInv c'))

/-- The concrete column of the spec scenarios: nested `[10,20,30,40,50]`,
offsets `[2,2,5]`, i.e. rows `[10,20]`, `[]`, `[30,40,50]`. -/
def sampleCol : ColumnArray Nat := ⟨[10, 20, 30, 40, 50], [2, 2, 5]⟩

/-- A concrete column with rows `[1,2]`, `[1,2,3]`, `[1,3]`. -/
def cmpCol : ColumnArray Nat := ⟨[1, 2, 1, 2, 3, 1, 3], [2, 5, 7]⟩

/-- Integer comparison of nested elements; the hint is irrelevant for integers,
as in `ColumnVector<T>::compareAt`. -/
def intCmpNat : Int → Nat → Nat → Int :=
  fun _ a b => if a < b then -1 else if a = b then 0 else 1

/-- The failing input for `cloneResized`: nested `[10,20,30]`, offsets `[2,3]`,
i.e. rows `[10,20]`, `[30]`. -/
def bugCol : ColumnArray Nat := ⟨[10, 20, 30], [2, 3]⟩

/-- A concrete one-byte-per-element codec for witnesses. -/
def serOne : Nat → List Nat := fun a => [a]

/-- Matching concrete element decoder for witnesses. -/
def deserOne : List Nat → Option (Nat × List Nat)
  | [] => none
  | b :: bs => some (b, bs)

/-! ### Helper lemmas -/

theorem lastOffset_concat (l : List Nat) (x : Nat) : lastOffset (l ++ [x]) = x :=
  List.getLastD_concat _ _ _

theorem getLastD_eq_getD (l : List Nat) : l.getLastD 0 = l.getD (l.length - 1) 0 := by
  rw [List.getLastD_eq_getLast?, List.getLast?_eq_getElem?, List.getD_eq_getElem?_getD]

theorem chain'_getD_le (l : List Nat) (h : List.Chain' (· ≤ ·) l) {i j : Nat}
    (hij : i ≤ j) (hj : j < l.length) : l.getD i 0 ≤ l.getD j 0 := by
  rcases Nat.eq_or_lt_of_le hij with rfl | hlt
  · exact le_refl _
  · have hi : i < l.length := lt_trans hlt hj
    rw [List.getD_eq_getElem?_getD, List.getD_eq_getElem?_getD,
      List.getElem?_eq_getElem hi, List.getElem?_eq_getElem hj]
    rw [List.chain'_iff_pairwise, List.pairwise_iff_getElem] at h
    exact h i j hi hj hlt

theorem getD_le_lastOffset (l : List Nat) (h : List.Chain' (· ≤ ·) l) {i : Nat}
    (hi : i < l.length) : l.getD i 0 ≤ lastOffset l := by
  rw [lastOffset, getLastD_eq_getD]
  exact chain'_getD_le l h (by omega) (by omega)

theorem offsetAt_add_sizeAt (c : ColumnArray α) (h : List.Chain' (· ≤ ·) c.offsets)
    {i : Nat} (hi : i < c.size) : c.offsetAt i + c.sizeAt i = c.offsets.getD i 0 := by
  unfold ColumnArray.offsetAt ColumnArray.sizeAt
  by_cases h0 : i = 0
  · subst h0; simp
  · rw [if_neg h0, if_neg h0]
    have hle : c.offsets.getD (i - 1) 0 ≤ c.offsets.getD i 0 :=
      chain'_getD_le _ h (by omega) hi
    omega

theorem row_range_le (c : ColumnArray α) (h : offsetsInv c) {i : Nat} (hi : i < c.size) :
    c.offsetAt i + c.sizeAt i ≤ c.data.length := by
  rw [offsetAt_add_sizeAt c h.1 hi, ← h.2]
  exact getD_le_lastOffset _ h.1 hi

theorem offsetAt_le_lastOffset (c : ColumnArray α) (h : List.Chain' (· ≤ ·) c.offsets)
    {i : Nat} (hi : i ≤ c.size) : c.offsetAt i ≤ lastOffset c.offsets := by
  unfold ColumnArray.offsetAt
  by_cases h0 : i = 0
  · simp [h0]
  · rw [if_neg h0]
    exact getD_le_lastOffset _ h (by unfold ColumnArray.size at hi; omega)

theorem rowAt_length (c : ColumnArray α) (h : offsetsInv c) {i : Nat} (hi : i < c.size) :
    (c.rowAt i).length = c.sizeAt i := by
  unfold ColumnArray.rowAt
  rw [List.length_take, List.length_drop]
  have := row_range_le c h hi
  omega

theorem pushOffset_eq (off : List Nat) (k : Nat) (h : lastOffset off + k < OFFSET_MOD) :
    pushOffset off k = off ++ [lastOffset off + k] := by
  rw [pushOffset, Nat.mod_eq_of_lt h]

theorem appendRow_inv (c : ColumnArray α) (xs : List α) (h : offsetsInv c) :
    offsetsInv ⟨c.data ++ xs, c.offsets ++ [c.data.length + xs.length]⟩ := by
  constructor
  · rw [List.chain'_append]
    refine ⟨h.1, List.chain'_singleton _, ?_⟩
    intro x hx y hy
    have hy' : y = c.data.length + xs.length := by
      have := Option.mem_def.mp hy
      simp only [List.head?_cons] at this
      exact (Option.some_inj.mp this).symm
    have hx' : x = c.data.length := by
      have : lastOffset c.offsets = x := by
        rw [lastOffset, List.getLastD_eq_getLast?, Option.mem_def.mp hx]
        rfl
      rw [← this, h.2]
    subst hx'; subst hy'
    omega
  · show lastOffset _ = _
    rw [lastOffset_concat, List.length_append]

theorem appendRow_offsetAt (c : ColumnArray α) (xs : List α) (v : Nat) (h : offsetsInv c) :
    ColumnArray.offsetAt ⟨c.data ++ xs, c.offsets ++ [v]⟩ c.size = c.data.length := by
  unfold ColumnArray.offsetAt ColumnArray.size
  by_cases h0 : c.offsets.length = 0
  · rw [if_pos h0, ← h.2, lastOffset]
    rw [List.length_eq_zero.mp h0]
    rfl
  · rw [if_neg h0]
    show (c.offsets ++ [v]).getD (c.offsets.length - 1) 0 = _
    rw [List.getD_append _ _ _ _ (by omega), ← h.2, lastOffset, getLastD_eq_getD]

theorem appendRow_sizeAt (c : ColumnArray α) (xs : List α) (h : offsetsInv c) :
    ColumnArray.sizeAt ⟨c.data ++ xs, c.offsets ++ [c.data.length + xs.length]⟩ c.size
      = xs.length := by
  unfold ColumnArray.sizeAt ColumnArray.size
  by_cases h0 : c.offsets.length = 0
  · rw [if_pos h0]
    have : c.offsets = [] := List.length_eq_zero.mp h0
    rw [this]
    have hd : c.data.length = 0 := by
      rw [← h.2, this]; rfl
    simp [hd]
  · rw [if_neg h0]
    rw [List.getD_append_right _ _ _ _ (by omega), Nat.sub_self]
    rw [List.getD_append _ _ _ _ (by omega)]
    have : c.offsets.getD (c.offsets.length - 1) 0 = c.data.length := by
      rw [← h.2, lastOffset, getLastD_eq_getD]
    rw [this]
    simp

theorem appendRow_rowAt (c : ColumnArray α) (xs : List α) (h : offsetsInv c) :
    ColumnArray.rowAt ⟨c.data ++ xs, c.offsets ++ [c.data.length + xs.length]⟩ c.size = xs := by
  unfold ColumnArray.rowAt
  rw [show (ColumnArray.mk (c.data ++ xs) (c.offsets ++ [c.data.length + xs.length])).data
      = c.data ++ xs from rfl]
  rw [appendRow_offsetAt c xs _ h, appendRow_sizeAt c xs h]
  rw [List.drop_left, List.take_length]

theorem getD_take (l : List Nat) {k j : Nat} (h : j < k) : (l.take k).getD j 0 = l.getD j 0 := by
  rw [List.getD_eq_getElem?_getD, List.getD_eq_getElem?_getD, List.getElem?_take_of_lt h]

theorem lastOffset_take (l : List Nat) {k : Nat} (hk0 : 0 < k) (hk : k ≤ l.length) :
    lastOffset (l.take k) = l.getD (k - 1) 0 := by
  rw [lastOffset, getLastD_eq_getD, List.length_take, Nat.min_eq_left hk]
  exact getD_take l (by omega)

theorem rowAt_take (c : ColumnArray α) (h : offsetsInv c) {k i : Nat} (hk : k ≤ c.size)
    (hik : i < k) :
    ColumnArray.rowAt ⟨c.data.take (c.offsetAt k), c.offsets.take k⟩ i = c.rowAt i := by
  have hik' : i < c.size := lt_of_lt_of_le hik hk
  have hoff : ColumnArray.offsetAt ⟨c.data.take (c.offsetAt k), c.offsets.take k⟩ i
      = c.offsetAt i := by
    unfold ColumnArray.offsetAt
    by_cases h0 : i = 0
    · simp [h0]
    · rw [if_neg h0, if_neg h0]
      exact getD_take _ (by omega)
  have hsz : ColumnArray.sizeAt ⟨c.data.take (c.offsetAt k), c.offsets.take k⟩ i
      = c.sizeAt i := by
    unfold ColumnArray.sizeAt
    by_cases h0 : i = 0
    · rw [if_pos h0, if_pos h0]
      exact getD_take _ (by omega)
    · rw [if_neg h0, if_neg h0, getD_take _ hik, getD_take _ (by omega)]
  have hbound : c.offsetAt i + c.sizeAt i ≤ c.offsetAt k := by
    rw [offsetAt_add_sizeAt c h.1 hik']
    unfold ColumnArray.offsetAt
    rw [if_neg (by omega : ¬ k = 0)]
    exact chain'_getD_le _ h.1 (by omega) (by unfold ColumnArray.size at hk; omega)
  unfold ColumnArray.rowAt
  rw [hoff, hsz]
  show ((c.data.take (c.offsetAt k)).drop (c.offsetAt i)).take (c.sizeAt i) = _
  rw [List.drop_take, List.take_take, Nat.min_eq_left (by omega)]

theorem deserLoop_append (deser : List Nat → Option (α × List Nat)) :
    ∀ (k : Nat) (acc : List α) (pos : List Nat) (d : List α) (p : List Nat),
      deserLoop deser k acc pos = some (d, p) → ∃ ys, d = acc ++ ys ∧ ys.length = k
  | 0, acc, pos, d, p => by
    intro h
    simp only [deserLoop, Option.some_inj, Prod.mk.injEq] at h
    exact ⟨[], by simp [h.1.symm], rfl⟩
  | k + 1, acc, pos, d, p => by
    intro h
    rw [deserLoop] at h
    cases hd : deser pos with
    | none => rw [hd] at h; exact absurd h (by simp)
    | some ap =>
      rw [hd] at h
      obtain ⟨a, pos₁⟩ := ap
      obtain ⟨ys, hys, hlen⟩ := deserLoop_append deser k (acc ++ [a]) pos₁ d p h
      refine ⟨a :: ys, ?_, by simp [hlen]⟩
      rw [hys, List.append_assoc, List.singleton_append]

theorem deserLoop_serRow (ser : α → List Nat) (deser : List Nat → Option (α × List Nat))
    (hrt : ∀ a tail, deser (ser a ++ tail) = some (a, tail)) :
    ∀ (row acc : List α) (rest : List Nat),
      deserLoop deser row.length acc (serRow ser row ++ rest) = some (acc ++ row, rest)
  | [], acc, rest => by simp [serRow, deserLoop]
  | a :: as, acc, rest => by
    rw [serRow, List.append_assoc, List.length_cons, deserLoop, hrt a (serRow ser as ++ rest)]
    show deserLoop deser as.length (acc ++ [a]) (serRow ser as ++ rest) = some (acc ++ a :: as, rest)
    rw [deserLoop_serRow ser deser hrt as (acc ++ [a]) rest]
    rw [List.append_assoc, List.singleton_append]

theorem toLEBytes_length : ∀ k n, (toLEBytes k n).length = k
  | 0, _ => rfl
  | k + 1, n => by rw [toLEBytes, List.length_cons, toLEBytes_length k]

theorem fromLEBytes_toLEBytes : ∀ (k n : Nat), fromLEBytes (toLEBytes k n) = n % 256 ^ k
  | 0, n => by simp [toLEBytes, fromLEBytes, Nat.mod_one]
  | k + 1, n => by
    rw [toLEBytes, fromLEBytes, fromLEBytes_toLEBytes k (n / 256),
      Nat.mod_mod_of_dvd n (dvd_refl 256), pow_succ', Nat.mod_mul]

theorem compareAtLoop_eq_pairLoop [Inhabited α] (f : α → α → Int) (dl dr : List α)
    (bL bR : Nat) :
    ∀ (k i : Nat), bL + i + k ≤ dl.length → bR + i + k ≤ dr.length →
      compareAtLoop f dl dr bL bR i k =
        pairLoop f ((dl.drop (bL + i)).take k) ((dr.drop (bR + i)).take k)
  | 0, i, _, _ => by simp [compareAtLoop, pairLoop]
  | k + 1, i, hL, hR => by
    have hLi : bL + i < dl.length := by omega
    have hRi : bR + i < dr.length := by omega
    rw [compareAtLoop, List.drop_eq_getElem_cons hLi, List.drop_eq_getElem_cons hRi,
      List.take_succ_cons, List.take_succ_cons, pairLoop]
    rw [List.getD_eq_getElem dl default hLi, List.getD_eq_getElem dr default hRi]
    by_cases h : f dl[bL + i] dr[bR + i] = 0
    · rw [if_pos h, if_pos h,
        compareAtLoop_eq_pairLoop f dl dr bL bR k (i + 1) (by omega) (by omega)]
      have e1 : bL + (i + 1) = bL + i + 1 := by omega
      have e2 : bR + (i + 1) = bR + i + 1 := by omega
      rw [e1, e2]
    · rw [if_neg h, if_neg h]

theorem lexCmpSpec_eq_loop (f : α → α → Int) :
    ∀ xs ys : List α,
      lexCmpSpec f xs ys =
        if pairLoop f (xs.take (min xs.length ys.length)) (ys.take (min xs.length ys.length)) ≠ 0
        then pairLoop f (xs.take (min xs.length ys.length)) (ys.take (min xs.length ys.length))
        else lengthCmp xs.length ys.length
  | [], [] => by simp [lexCmpSpec, pairLoop, lengthCmp]
  | [], b :: bs => by simp [lexCmpSpec, pairLoop, lengthCmp]
  | a :: as, [] => by simp [lexCmpSpec, pairLoop, lengthCmp]
  | a :: as, b :: bs => by
    rw [lexCmpSpec]
    have hmin : min (a :: as).length (b :: bs).length = min as.length bs.length + 1 := by
      simp [Nat.succ_min_succ]
    rw [hmin, List.take_succ_cons, List.take_succ_cons, pairLoop]
    by_cases h : f a b = 0
    · rw [if_pos h, if_pos h, lexCmpSpec_eq_loop f as bs]
      have hlen : lengthCmp (a :: as).length (b :: bs).length = lengthCmp as.length bs.length := by
        simp [lengthCmp, Nat.succ_lt_succ_iff]
      rw [hlen]
    · simp only [if_neg h]
      rw [if_pos h]

theorem lexCmpSpec_antisymm (f : α → α → Int) (hf : ∀ a b, f a b = -f b a) :
    ∀ xs ys : List α, lexCmpSpec f xs ys = -lexCmpSpec f ys xs
  | [], [] => by simp [lexCmpSpec]
  | [], b :: bs => by simp [lexCmpSpec]
  | a :: as, [] => by simp [lexCmpSpec]
  | a :: as, b :: bs => by
    rw [lexCmpSpec, lexCmpSpec]
    by_cases h : f a b = 0
    · have h' : f b a = 0 := by rw [hf b a, h]; rfl
      rw [if_pos h, if_pos h']
      exact lexCmpSpec_antisymm f hf as bs
    · have h' : ¬ f b a = 0 := by
        intro hc
        exact h (by rw [hf a b, hc]; rfl)
      rw [if_neg h, if_neg h', hf a b]

theorem compareAt_eq_lexCmpSpec [Inhabited α] (cmp : Int → α → α → Int) (hint : Int)
    (c rhs : ColumnArray α) {n m : Nat} (hc : offsetsInv c) (hr : offsetsInv rhs)
    (hn : n < c.size) (hm : m < rhs.size) :
    c.compareAt n m rhs cmp hint = lexCmpSpec (cmp hint) (c.rowAt n) (rhs.rowAt m) := by
  have hL : c.offsetAt n + 0 + min (c.sizeAt n) (rhs.sizeAt m) ≤ c.data.length := by
    have h1 := row_range_le c hc hn
    have h2 := Nat.min_le_left (c.sizeAt n) (rhs.sizeAt m)
    omega
  have hR : rhs.offsetAt m + 0 + min (c.sizeAt n) (rhs.sizeAt m) ≤ rhs.data.length := by
    have h1 := row_range_le rhs hr hm
    have h2 := Nat.min_le_right (c.sizeAt n) (rhs.sizeAt m)
    omega
  show (if compareAtLoop (cmp hint) c.data rhs.data (c.offsetAt n) (rhs.offsetAt m) 0
          (min (c.sizeAt n) (rhs.sizeAt m)) ≠ 0
        then compareAtLoop (cmp hint) c.data rhs.data (c.offsetAt n) (rhs.offsetAt m) 0
          (min (c.sizeAt n) (rhs.sizeAt m))
        else lengthCmp (c.sizeAt n) (rhs.sizeAt m)) = _
  rw [compareAtLoop_eq_pairLoop (cmp hint) c.data rhs.data _ _ _ 0 hL hR,
    Nat.add_zero, Nat.add_zero, lexCmpSpec_eq_loop, rowAt_length c hc hn,
    rowAt_length rhs hr hm]
  unfold ColumnArray.rowAt
  rw [List.take_take, List.take_take, Nat.min_eq_left (Nat.min_le_left _ _),
    Nat.min_eq_left (Nat.min_le_right _ _)]

theorem popBack_eq_take (c : ColumnArray α) (h : offsetsInv c) {n : Nat} (hnR : n ≤ c.size) :
    c.popBack n = ⟨c.data.take (c.offsetAt (c.size - n)), c.offsets.take (c.size - n)⟩ := by
  have hOA : c.offsetAt (c.size - n) ≤ lastOffset c.offsets :=
    offsetAt_le_lastOffset c h.1 (by omega)
  have hlast := h.2
  show (⟨c.data.take (c.data.length - (lastOffset c.offsets - c.offsetAt (c.offsets.length - n))),
        c.offsets.take (c.offsets.length - n)⟩ : ColumnArray α) = _
  have hsz : c.offsets.length = c.size := rfl
  rw [hsz]
  have harg : c.data.length - (lastOffset c.offsets - c.offsetAt (c.size - n))
      = c.offsetAt (c.size - n) := by omega
  rw [harg]

theorem take_inv (c : ColumnArray α) (h : offsetsInv c) {k : Nat} (hk : k ≤ c.size) :
    offsetsInv ⟨c.data.take (c.offsetAt k), c.offsets.take k⟩ := by
  have hOA : c.offsetAt k ≤ lastOffset c.offsets := offsetAt_le_lastOffset c h.1 hk
  constructor
  · exact h.1.take _
  · show lastOffset (c.offsets.take k) = (c.data.take (c.offsetAt k)).length
    have hlast := h.2
    rw [List.length_take, Nat.min_eq_left (by omega)]
    by_cases h0 : k = 0
    · subst h0
      simp [lastOffset, ColumnArray.offsetAt]
    · rw [lastOffset_take _ (by omega) (by unfold ColumnArray.size at hk; omega)]
      unfold ColumnArray.offsetAt
      rw [if_neg h0]

theorem insertData_ok (c : ColumnArray α) (w : Nat) (dec : List Nat → α) (bytes : List Nat)
    (hw : bytes.length % w = 0) :
    c.insertData true w dec bytes =
      .ok ⟨c.data ++ (List.range (bytes.length / w)).map
            (fun i => dec ((bytes.drop (i * w)).take w)),
          pushOffset c.offsets (bytes.length / w)⟩ := by
  unfold ColumnArray.insertData
  simp [hw]

theorem intCmpNat_antisymm (hint : Int) :
    ∀ a b : Nat, intCmpNat hint a b = -(intCmpNat hint b a) := by
  intro a b
  unfold intCmpNat
  rcases Nat.lt_trichotomy a b with h | h | h
  · rw [if_pos h, if_neg (by omega : ¬ b < a), if_neg (by omega : ¬ b = a)]
  · subst h
    rw [if_neg (by omega : ¬ a < a), if_pos rfl]
    decide
  · rw [if_neg (by omega : ¬ a < b), if_neg (by omega : ¬ a = b), if_pos h]
    decide

/-! ### Claim theorems -/

/-- C3: `compareAt(n, m, rhs, hint)` equals the spec's lexicographic
position-by-position comparison of the two rows with the nested comparator (the
hint passed through), with the shorter row smaller on a tie of all shared
positions and equal-length all-equal rows comparing equal; it is antisymmetric
when the nested comparator is; concretely `[1,2] < [1,2,3]` and
`[1,3] > [1,2,3]`. -/
theorem C3_compareAt_lexicographic {α : Type} [Inhabited α] :
    (∀ (cmp : Int → α → α → Int) (hint : Int) (c rhs : ColumnArray α) (n m : Nat),
      offsetsInv c → offsetsInv rhs → n < c.size → m < rhs.size →
      c.compareAt n m rhs cmp hint = lexCmpSpec (cmp hint) (c.rowAt n) (rhs.rowAt m)) ∧
    (∀ (cmp : Int → α → α → Int) (hint : Int) (c rhs : ColumnArray α) (n m : Nat),
      (∀ a b, cmp hint a b = -(cmp hint b a)) →
      offsetsInv c → offsetsInv rhs → n < c.size → m < rhs.size →
      c.compareAt n m rhs cmp hint = -(rhs.compareAt m n c cmp hint)) ∧
    cmpCol.compareAt 0 1 cmpCol intCmpNat 1 = -1 ∧
    cmpCol.compareAt 2 1 cmpCol intCmpNat 1 = 1 := by
  refine ⟨fun cmp hint c rhs n m hc hr hn hm =>
      compareAt_eq_lexCmpSpec cmp hint c rhs hc hr hn hm,
    fun cmp hint c rhs n m hanti hc hr hn hm => ?_, by decide, by decide⟩
  rw [compareAt_eq_lexCmpSpec cmp hint c rhs hc hr hn hm,
    compareAt_eq_lexCmpSpec cmp hint rhs c hr hc hm hn,
    lexCmpSpec_antisymm (cmp hint) hanti]

/-- C3 witness: the general parts instantiated on the concrete column. -/
theorem C3_compareAt_lexicographic_witness :
    cmpCol.compareAt 0 1 cmpCol intCmpNat 1
        = lexCmpSpec (intCmpNat 1) (cmpCol.rowAt 0) (cmpCol.rowAt 1) ∧
    cmpCol.compareAt 0 1 cmpCol intCmpNat 1 = -(cmpCol.compareAt 1 0 cmpCol intCmpNat 1) :=
  ⟨C3_compareAt_lexicographic.1 intCmpNat 1 cmpCol cmpCol 0 1
      (by decide) (by decide) (by decide) (by decide),
    C3_compareAt_lexicographic.2.1 intCmpNat 1 cmpCol cmpCol 0 1
      (intCmpNat_antisymm 1) (by decide) (by decide) (by decide) (by decide)⟩

/-- C4: `popBack(n)` (for `0 < n ≤ R` on an invariant-satisfying column) shrinks
the nested container by exactly `last_offset - offsetAt(R-n)` elements, computed
from the not-yet-shrunk offsets, then shrinks the offsets by `n`; the retained
data is exactly the elements of the first `R-n` rows, the invariant is
preserved, and every surviving row is unchanged.  Concretely, on nested
`[10,20,30,40,50]` with offsets `[2,2,5]`, `popBack 1` leaves `[10,20]` and
`[2,2]`. -/
theorem C4_popBack_shrinks_data_then_offsets {α : Type} :
    (∀ (c : ColumnArray α) (n : Nat), offsetsInv c → 0 < n → n ≤ c.size →
      (c.popBack n).offsets = c.offsets.take (c.size - n) ∧
      (c.popBack n).data.length + (lastOffset c.offsets - c.offsetAt (c.size - n))
        = c.data.length ∧
      (c.popBack n).data = c.data.take (c.offsetAt (c.size - n)) ∧
      offsetsInv (c.popBack n) ∧
      (∀ i, i < c.size - n → (c.popBack n).rowAt i = c.rowAt i)) ∧
    sampleCol.popBack 1 = ⟨[10, 20], [2, 2]⟩ := by
  refine ⟨fun c n hinv hn hnR => ?_, by decide⟩
  have he := popBack_eq_take c hinv hnR
  have hOA : c.offsetAt (c.size - n) ≤ lastOffset c.offsets :=
    offsetAt_le_lastOffset c hinv.1 (by omega)
  have hlast := hinv.2
  refine ⟨by rw [he], ?_, by rw [he], ?_, ?_⟩
  · rw [he]
    show (c.data.take (c.offsetAt (c.size - n))).length + _ = _
    rw [List.length_take]
    omega
  · rw [he]
    exact take_inv c hinv (by omega)
  · intro i hi
    rw [he]
    exact rowAt_take c hinv (by omega) hi

/-- C4 witness: the general part instantiated at the concrete scenario. -/
theorem C4_popBack_shrinks_data_then_offsets_witness :
    (sampleCol.popBack 1).offsets = sampleCol.offsets.take 2 ∧
    (sampleCol.popBack 1).data.length
        + (lastOffset sampleCol.offsets - sampleCol.offsetAt 2) = sampleCol.data.length ∧
    (sampleCol.popBack 1).data = sampleCol.data.take (sampleCol.offsetAt 2) ∧
    offsetsInv (sampleCol.popBack 1) ∧
    (sampleCol.popBack 1).rowAt 0 = sampleCol.rowAt 0 ∧
    (sampleCol.popBack 1).rowAt 1 = sampleCol.rowAt 1 := by
  have h := C4_popBack_shrinks_data_then_offsets.1 sampleCol 1 (by decide) (by decide) (by decide)
  exact ⟨h.1, h.2.1, h.2.2.1, h.2.2.2.1, h.2.2.2.2 0 (by decide), h.2.2.2.2 1 (by decide)⟩

/-- C5: `insertData` throws `NOT_IMPLEMENTED` on a non-fixed-width nested
container; on a fixed-width container of width `w > 0` it throws
`BAD_ARGUMENTS` exactly when the byte length is not a multiple of `w`, and
otherwise appends `length / w` consecutively sliced elements and then one
offset covering exactly that count (the new last row being those elements). -/
theorem C5_insertData_fixed_width_errors {α : Type} :
    (∀ (c : ColumnArray α) (w : Nat) (dec : List Nat → α) (bytes : List Nat),
      c.insertData false w dec bytes = .error .notImplemented) ∧
    (∀ (c : ColumnArray α) (w : Nat) (dec : List Nat → α) (bytes : List Nat), 0 < w →
      (c.insertData true w dec bytes = .error .badArguments ↔ bytes.length % w ≠ 0)) ∧
    (∀ (c : ColumnArray α) (w : Nat) (dec : List Nat → α) (bytes : List Nat), 0 < w →
      bytes.length % w = 0 →
      c.insertData true w dec bytes =
        .ok ⟨c.data ++ (List.range (bytes.length / w)).map
              (fun i => dec ((bytes.drop (i * w)).take w)),
            pushOffset c.offsets (bytes.length / w)⟩) ∧
    (∀ (c : ColumnArray α) (w : Nat) (dec : List Nat → α) (bytes : List Nat)
        (c' : ColumnArray α), 0 < w →
      offsetsInv c → bytes.length % w = 0 →
      c.data.length + bytes.length / w < OFFSET_MOD →
      c.insertData true w dec bytes = .ok c' →
      c'.size = c.size + 1 ∧ offsetsInv c' ∧
      c'.rowAt c.size =
        (List.range (bytes.length / w)).map (fun i => dec ((bytes.drop (i * w)).take w)) ∧
      c'.sizeAt c.size = bytes.length / w) := by
  refine ⟨fun c w dec bytes => rfl, fun c w dec bytes hw => ?_,
    fun c w dec bytes hw hmul => insertData_ok c w dec bytes hmul,
    fun c w dec bytes c' hw hinv hmul hov hok => ?_⟩
  · unfold ColumnArray.insertData
    by_cases h : bytes.length % w = 0
    · simp [h]
    · simp [h]
  · rw [insertData_ok c w dec bytes hmul] at hok
    set xs := (List.range (bytes.length / w)).map (fun i => dec ((bytes.drop (i * w)).take w))
      with hxs
    have hxlen : xs.length = bytes.length / w := by
      rw [hxs, List.length_map, List.length_range]
    have hc' : c' = ⟨c.data ++ xs, pushOffset c.offsets (bytes.length / w)⟩ := by
      cases hok
      rfl
    subst hc'
    have hpush : pushOffset c.offsets (bytes.length / w)
        = c.offsets ++ [c.data.length + bytes.length / w] := by
      rw [pushOffset_eq _ _ (by rw [hinv.2]; omega), hinv.2]
    refine ⟨?_, ?_, ?_, ?_⟩
    · show (pushOffset c.offsets (bytes.length / w)).length = c.offsets.length + 1
      rw [hpush, List.length_append, List.length_cons]
      rfl
    · show offsetsInv ⟨c.data ++ xs, pushOffset c.offsets (bytes.length / w)⟩
      rw [hpush, ← hxlen]
      exact appendRow_inv c xs hinv
    · show ColumnArray.rowAt ⟨c.data ++ xs, pushOffset c.offsets (bytes.length / w)⟩ c.size = xs
      rw [hpush, ← hxlen]
      exact appendRow_rowAt c xs hinv
    · show ColumnArray.sizeAt ⟨c.data ++ xs, pushOffset c.offsets (bytes.length / w)⟩ c.size
        = bytes.length / w
      rw [hpush, ← hxlen]
      exact appendRow_sizeAt c xs hinv

/-- C5 witness: concrete instantiations of all four error/success parts. -/
theorem C5_insertData_fixed_width_errors_witness :
    (sampleCol.insertData false 2 (fun l => l.headD 0) [1, 2]
        = .error .notImplemented) ∧
    (sampleCol.insertData true 2 (fun l => l.headD 0) [1, 2, 3]
        = .error .badArguments ↔ (3 : Nat) % 2 ≠ 0) ∧
    sampleCol.insertData true 2 (fun l => l.headD 0) [1, 2, 3, 4] =
      .ok ⟨sampleCol.data ++ (List.range 2).map
            (fun i => ([1, 2, 3, 4].drop (i * 2)).take 2 |>.headD 0),
          pushOffset sampleCol.offsets 2⟩ ∧
    (ColumnArray.mk [10, 20, 30, 40, 50, 1, 3] [2, 2, 5, 7]).size = sampleCol.size + 1 ∧
    offsetsInv (ColumnArray.mk [10, 20, 30, 40, 50, 1, 3] [2, 2, 5, 7]) ∧
    (ColumnArray.mk [10, 20, 30, 40, 50, 1, 3] [2, 2, 5, 7]).rowAt sampleCol.size =
      (List.range 2).map (fun i => ([1, 2, 3, 4].drop (i * 2)).take 2 |>.headD 0) ∧
    (ColumnArray.mk [10, 20, 30, 40, 50, 1, 3] [2, 2, 5, 7]).sizeAt sampleCol.size = 2 := by
  have h4 := C5_insertData_fixed_width_errors.2.2.2 sampleCol 2 (fun l => l.headD 0)
    [1, 2, 3, 4] ⟨[10, 20, 30, 40, 50, 1, 3], [2, 2, 5, 7]⟩
    (by decide) (by decide) (by decide) (by decide) (by decide)
  exact ⟨C5_insertData_fixed_width_errors.1 sampleCol 2 (fun l => l.headD 0) [1, 2],
    C5_insertData_fixed_width_errors.2.1 sampleCol 2 (fun l => l.headD 0) [1, 2, 3] (by decide),
    C5_insertData_fixed_width_errors.2.2.1 sampleCol 2 (fun l => l.headD 0) [1, 2, 3, 4]
      (by decide) (by decide),
    h4.1, h4.2.1, h4.2.2.1, h4.2.2.2⟩

/-- C6: the constructor throws `ILLEGAL_COLUMN` exactly when a non-null offsets
handle is not a `ColumnVector<UInt64>`, and the error is independent of any
payload data (nothing is read or written before the type check); with no
offsets handle a fresh empty offsets sequence is created, and with a well-typed
handle construction succeeds over that handle's values. -/
theorem C6_constructor_offsets_type_check {α : Type} :
    (∀ (nested : List α) (oc : RawColumn),
      mkColumnArray nested (some oc) = .error .illegalColumn ↔ oc.kind ≠ ColKind.uint64) ∧
    (∀ (n₁ n₂ : List α) (v₁ v₂ : List Nat) (k : ColKind), k ≠ ColKind.uint64 →
      mkColumnArray n₁ (some ⟨k, v₁⟩) = mkColumnArray n₂ (some ⟨k, v₂⟩)) ∧
    (∀ nested : List α, mkColumnArray nested none = .ok ⟨nested, []⟩) ∧
    (∀ (nested : List α) (vals : List Nat),
      mkColumnArray nested (some ⟨ColKind.uint64, vals⟩) = .ok ⟨nested, vals⟩) := by
  refine ⟨fun nested oc => ?_, fun n₁ n₂ v₁ v₂ k hk => ?_, fun nested => rfl,
    fun nested vals => by simp [mkColumnArray]⟩
  · by_cases h : oc.kind = ColKind.uint64
    · simp [mkColumnArray, h]
    · simp [mkColumnArray, h]
  · simp [mkColumnArray, hk]

/-- C6 witness: a `ColumnVector<UInt32>`-typed offsets handle is rejected
independently of payloads; `none` and a `UInt64` handle succeed. -/
theorem C6_constructor_offsets_type_check_witness :
    (mkColumnArray [5, 6] (some ⟨ColKind.uint32, [1]⟩) = .error .illegalColumn
      ↔ ColKind.uint32 ≠ ColKind.uint64) ∧
    mkColumnArray [5, 6] (some ⟨ColKind.uint32, [1]⟩)
      = mkColumnArray [7] (some ⟨ColKind.uint32, [9, 9]⟩) ∧
    mkColumnArray ([5, 6] : List Nat) none = .ok ⟨[5, 6], []⟩ ∧
    mkColumnArray ([5, 6] : List Nat) (some ⟨ColKind.uint64, [1, 2]⟩) = .ok ⟨[5, 6], [1, 2]⟩ :=
  ⟨C6_constructor_offsets_type_check.1 [5, 6] ⟨ColKind.uint32, [1]⟩,
    C6_constructor_offsets_type_check.2.1 [5, 6] [7] [1] [9, 9] ColKind.uint32 (by decide),
    C6_constructor_offsets_type_check.2.2.1 [5, 6],
    C6_constructor_offsets_type_check.2.2.2 [5, 6] [1, 2]⟩

/-- C7: `insertDefault` appends one zero-length row by pushing a duplicate of
the last offset (0 on an empty column), leaving the nested container unchanged;
on an empty column it yields offsets `[0]`, row count 1 and an empty row, and a
second call yields offsets `[0,0]`. -/
theorem C7_insertDefault_duplicates_last_offset :
    (∀ (α : Type) (c : ColumnArray α),
      c.insertDefault.offsets = c.offsets ++ [lastOffset c.offsets] ∧
      c.insertDefault.data = c.data ∧
      c.insertDefault.size = c.size + 1) ∧
    (ColumnArray.insertDefault ⟨[], []⟩ : ColumnArray Nat).offsets = [0] ∧
    (ColumnArray.insertDefault ⟨[], []⟩ : ColumnArray Nat).size = 1 ∧
    (ColumnArray.insertDefault ⟨[], []⟩ : ColumnArray Nat).rowAt 0 = [] ∧
    (ColumnArray.insertDefault (ColumnArray.insertDefault ⟨[], []⟩) :
      ColumnArray Nat).offsets = [0, 0] := by
  refine ⟨fun α c => ⟨rfl, rfl, ?_⟩, by decide, by decide, by decide, by decide⟩
  show (c.offsets ++ [lastOffset c.offsets]).length = c.offsets.length + 1
  rw [List.length_append, List.length_cons]
  rfl

/-- C8 counterexample: on a column where neither the nested container nor the
offsets column is a constant representation, `convertToFullColumnIfConst` still
allocates a fresh `ColumnArray` wrapper (the source runs
`std::make_shared<ColumnArray>(new_data, new_offsets)` on every path and never
returns its own handle), so it does not return "the same column, not a new
wrapper" — the result is only structurally equal to the receiver. -/
theorem C8_counterexample_always_new_wrapper :
    (ColumnArrayH.mk (ColRep.full [1, 2]) (ColRep.full [2]) : ColumnArrayH Nat).data.isConst
      = false ∧
    (ColumnArrayH.mk (ColRep.full [1, 2]) (ColRep.full [2]) : ColumnArrayH Nat).offsets.isConst
      = false ∧
    ((ColumnArrayH.mk (ColRep.full [1, 2]) (ColRep.full [2]) :
        ColumnArrayH Nat).convertToFullColumnIfConst).2 = true := by
  decide

/-- C8 (amended): `convertToFullColumnIfConst` always returns a freshly
allocated array-column wrapper; whichever of the two parts is a constant
representation is fully materialized in the result, a non-constant part is
reused unchanged, and when neither part is constant the result is structurally
equal to the receiver (but still a new wrapper, not the identical column). -/
theorem C8_materializeIfConstant {α : Type} :
    (∀ c : ColumnArrayH α, (c.convertToFullColumnIfConst).2 = true) ∧
    (∀ c : ColumnArrayH α, c.data.isConst = false → c.offsets.isConst = false →
      (c.convertToFullColumnIfConst).1 = c) ∧
    (∀ (n : Nat) (v : α) (off : ColRep Nat),
      ((ColumnArrayH.mk (ColRep.const n v) off).convertToFullColumnIfConst).1.data
        = ColRep.full (List.replicate n v)) ∧
    (∀ (d : ColRep α) (n v : Nat),
      ((ColumnArrayH.mk d (ColRep.const n v)).convertToFullColumnIfConst).1.offsets
        = ColRep.full (List.replicate n v)) ∧
    (∀ c : ColumnArrayH α, c.data.isConst = false →
      (c.convertToFullColumnIfConst).1.data = c.data) ∧
    (∀ c : ColumnArrayH α, c.offsets.isConst = false →
      (c.convertToFullColumnIfConst).1.offsets = c.offsets) := by
  have hfull : ∀ (β : Type) (r : ColRep β), r.isConst = false →
      r.convertToFullColumnIfConst = none := by
    intro β r hr
    cases r with
    | full elems => rfl
    | const n v => exact absurd hr (by simp [ColRep.isConst])
  refine ⟨fun c => rfl, fun c hd ho => ?_, fun n v off => ?_, fun d n v => ?_,
    fun c hd => ?_, fun c ho => ?_⟩
  · show ColumnArrayH.mk ((c.data.convertToFullColumnIfConst).getD c.data)
        ((c.offsets.convertToFullColumnIfConst).getD c.offsets) = c
    rw [hfull α c.data hd, hfull Nat c.offsets ho]
    rfl
  · rfl
  · rfl
  · show (c.data.convertToFullColumnIfConst).getD c.data = c.data
    rw [hfull α c.data hd]
    rfl
  · show (c.offsets.convertToFullColumnIfConst).getD c.offsets = c.offsets
    rw [hfull Nat c.offsets ho]
    rfl

/-- C8 witness: amended behaviour at concrete inputs — identity of the parts on
a fully-non-constant column and materialization of a constant nested part. -/
theorem C8_materializeIfConstant_witness :
    ((ColumnArrayH.mk (ColRep.full [3]) (ColRep.full [1]) :
        ColumnArrayH Nat).convertToFullColumnIfConst).2 = true ∧
    ((ColumnArrayH.mk (ColRep.full [3]) (ColRep.full [1]) :
        ColumnArrayH Nat).convertToFullColumnIfConst).1
      = ColumnArrayH.mk (ColRep.full [3]) (ColRep.full [1]) ∧
    ((ColumnArrayH.mk (ColRep.const 3 (7 : Nat))
        (ColRep.full [3])).convertToFullColumnIfConst).1.data
      = ColRep.full (List.replicate 3 7) :=
  ⟨C8_materializeIfConstant.1 _,
    C8_materializeIfConstant.2.1 _ (by decide) (by decide),
    C8_materializeIfConstant.2.2.1 3 7 (ColRep.full [3])⟩

/-- C9 (evaluation at the failing input): `cloneResized` passes the retained
row count `count` — not the element count `offsets[count-1]` — to
`getData().insertRangeFrom`, so cloning the first row of a column with rows
`[10,20]`, `[30]` yields offsets `[2]` but nested data `[10]`: the clone's last
offset no longer equals its nested length (the offsets invariant is violated)
and its row 0 is `[10]` instead of `[10,20]`. -/
theorem C9_cloneResized_wrong_element_count :
    offsetsInv bugCol ∧
    (bugCol.cloneResized 1).offsets = [2] ∧
    (bugCol.cloneResized 1).data = [10] ∧
    ¬ offsetsInv (bugCol.cloneResized 1) ∧
    ¬ (bugCol.cloneResized 1).rowAt 0 = bugCol.rowAt 0 ∧
    bugCol.rowAt 0 = [10, 20] := by
  decide

/-- C10: for a zero-length row, `getDataAt` returns the empty `StringRef`
without reading any element of the nested container — the result does not
depend on the nested accessor at all. -/
theorem C10_getDataAt_empty_row_no_access {α : Type} :
    ∀ (c : ColumnArray α) (n : Nat) (acc acc' : Nat → StringRefM),
      c.sizeAt n = 0 →
      c.getDataAt acc n = ⟨0, 0⟩ ∧ c.getDataAt acc n = c.getDataAt acc' n := by
  intro c n acc acc' h
  constructor
  · simp [ColumnArray.getDataAt, h]
  · simp [ColumnArray.getDataAt, h]

/-- C10 witness: the empty middle row of the sample column, under two different
accessors. -/
theorem C10_getDataAt_empty_row_no_access_witness :
    sampleCol.getDataAt (fun i => ⟨i + 1, 1⟩) 1 = ⟨0, 0⟩ ∧
    sampleCol.getDataAt (fun i => ⟨i + 1, 1⟩) 1 = sampleCol.getDataAt (fun _ => ⟨9, 9⟩) 1 :=
  C10_getDataAt_empty_row_no_access sampleCol 1 (fun i => ⟨i + 1, 1⟩) (fun _ => ⟨9, 9⟩)
    (by decide)

theorem appendsOneOffset_mk (c : ColumnArray α) (xs : List α) (h : offsetsInv c)
    (hov : c.data.length + xs.length < OFFSET_MOD) :
    appendsOneOffset c ⟨c.data ++ xs, pushOffset c.offsets xs.length⟩ xs.length := by
  have hpush : pushOffset c.offsets xs.length
      = c.offsets ++ [lastOffset c.offsets + xs.length] :=
    pushOffset_eq _ _ (by rw [h.2]; omega)
  have hpush' : pushOffset c.offsets xs.length
      = c.offsets ++ [c.data.length + xs.length] := by
    rw [hpush, h.2]
  refine ⟨by rw [hpush], ?_, ?_⟩
  · show (c.data ++ xs).length = c.data.length + xs.length
    exact List.length_append _ _
  · show offsetsInv ⟨c.data ++ xs, pushOffset c.offsets xs.length⟩
    rw [hpush']
    exact appendRow_inv c xs h

/-- C1: each row-appending operation — `insert`, `insertFrom`, `insertDefault`,
`insertData`, `deserializeAndInsertFromArena` — pushes exactly one new offset
equal to the previous last offset plus the number of appended elements (that
count itself on a first row, since the previous last offset is then 0), grows
the nested container by exactly that count, and so preserves the offsets
invariant; no decreasing offset is ever inserted. -/
theorem C1_row_appends_push_one_monotone_offset {α : Type} :
    (∀ (c : ColumnArray α) (xs : List α), offsetsInv c →
      c.data.length + xs.length < OFFSET_MOD →
      appendsOneOffset c (c.insert xs) xs.length) ∧
    (∀ (c src : ColumnArray α) (n : Nat), offsetsInv c → offsetsInv src → n < src.size →
      c.data.length + src.sizeAt n < OFFSET_MOD →
      appendsOneOffset c (c.insertFrom src n) (src.sizeAt n)) ∧
    (∀ c : ColumnArray α, offsetsInv c → appendsOneOffset c c.insertDefault 0) ∧
    (∀ (c : ColumnArray α) (w : Nat) (dec : List Nat → α) (bytes : List Nat),
      offsetsInv c → 0 < w → bytes.length % w = 0 →
      c.data.length + bytes.length / w < OFFSET_MOD →
      ∃ c', c.insertData true w dec bytes = .ok c' ∧
        appendsOneOffset c c' (bytes.length / w)) ∧
    (∀ (c : ColumnArray α) (deser : List Nat → Option (α × List Nat)) (pos : List Nat)
        (c' : ColumnArray α) (rest : List Nat),
      offsetsInv c → c.deserializeAndInsertFromArena deser pos = some (c', rest) →
      c.data.length + fromLEBytes (pos.take 8) < OFFSET_MOD →
      appendsOneOffset c c' (fromLEBytes (pos.take 8))) := by
  refine ⟨fun c xs hc hov => appendsOneOffset_mk c xs hc hov,
    fun c src n hc hsrc hn hov => ?_, fun c hc => ?_,
    fun c w dec bytes hc hw hmul hov => ?_,
    fun c deser pos c' rest hc hsucc hov => ?_⟩
  · have hlen : (src.rowAt n).length = src.sizeAt n := rowAt_length src hsrc hn
    have hm := appendsOneOffset_mk c (src.rowAt n) hc (by rw [hlen]; omega)
    rw [hlen] at hm
    exact hm
  · refine ⟨?_, (Nat.add_zero _).symm, ?_⟩
    · show c.offsets ++ [lastOffset c.offsets] = c.offsets ++ [lastOffset c.offsets + 0]
      rw [Nat.add_zero]
    have h0 := appendRow_inv c [] hc
    simp only [List.append_nil, List.length_nil, Nat.add_zero] at h0
    show offsetsInv ⟨c.data, c.offsets ++ [lastOffset c.offsets]⟩
    rw [hc.2]
    exact h0
  · refine ⟨⟨c.data ++ (List.range (bytes.length / w)).map
        (fun i => dec ((bytes.drop (i * w)).take w)),
      pushOffset c.offsets (bytes.length / w)⟩, insertData_ok c w dec bytes hmul, ?_⟩
    have hxlen : ((List.range (bytes.length / w)).map
        (fun i => dec ((bytes.drop (i * w)).take w))).length = bytes.length / w := by
      rw [List.length_map, List.length_range]
    have hm := appendsOneOffset_mk c ((List.range (bytes.length / w)).map
        (fun i => dec ((bytes.drop (i * w)).take w))) hc (by rw [hxlen]; omega)
    rw [hxlen] at hm
    exact hm
  · unfold ColumnArray.deserializeAndInsertFromArena at hsucc
    by_cases h8 : pos.length < 8
    · rw [if_pos h8] at hsucc
      exact absurd hsucc (by simp)
    · rw [if_neg h8] at hsucc
      cases hdl : deserLoop deser (fromLEBytes (pos.take 8)) c.data (pos.drop 8) with
      | none =>
        rw [hdl] at hsucc
        exact absurd hsucc (by simp)
      | some dp =>
        rw [hdl] at hsucc
        obtain ⟨d, pos₁⟩ := dp
        have hcr : c' = ⟨d, pushOffset c.offsets (fromLEBytes (pos.take 8))⟩ := by
          cases hsucc
          rfl
        obtain ⟨ys, hys, hyslen⟩ :=
          deserLoop_append deser _ c.data (pos.drop 8) d pos₁ hdl
        have hm := appendsOneOffset_mk c ys hc (by rw [hyslen]; omega)
        rw [hyslen] at hm
        rw [hcr, hys]
        exact hm

/-- C1 witness: all five appending operations at concrete inputs. -/
theorem C1_row_appends_push_one_monotone_offset_witness :
    appendsOneOffset sampleCol (sampleCol.insert [7]) 1 ∧
    appendsOneOffset sampleCol (sampleCol.insertFrom sampleCol 2) 3 ∧
    appendsOneOffset sampleCol sampleCol.insertDefault 0 ∧
    appendsOneOffset sampleCol ⟨[10, 20, 30, 40, 50, 1, 3], [2, 2, 5, 7]⟩ 2 ∧
    appendsOneOffset sampleCol ⟨[10, 20, 30, 40, 50, 9, 9], [2, 2, 5, 7]⟩
      (fromLEBytes ((toLEBytes 8 2 ++ [9, 9]).take 8)) := by
  refine ⟨C1_row_appends_push_one_monotone_offset.1 sampleCol [7] (by decide) (by decide),
    C1_row_appends_push_one_monotone_offset.2.1 sampleCol sampleCol 2
      (by decide) (by decide) (by decide) (by decide),
    C1_row_appends_push_one_monotone_offset.2.2.1 sampleCol (by decide), ?_,
    C1_row_appends_push_one_monotone_offset.2.2.2.2 sampleCol deserOne
      (toLEBytes 8 2 ++ [9, 9]) ⟨[10, 20, 30, 40, 50, 9, 9], [2, 2, 5, 7]⟩ []
      (by decide) (by decide) (by decide)⟩
  obtain ⟨c', hok, hA⟩ := C1_row_appends_push_one_monotone_offset.2.2.2.1 sampleCol 2
    (fun l => l.headD 0) [1, 2, 3, 4] (by decide) (by decide) (by decide) (by decide)
  have hc' : c' = ⟨[10, 20, 30, 40, 50, 1, 3], [2, 2, 5, 7]⟩ := by
    rw [insertData_ok sampleCol 2 (fun l => l.headD 0) [1, 2, 3, 4] (by decide)] at hok
    injection hok with h
    rw [← h]
    decide
  exact hc' ▸ hA

/-- C2: with an element codec that round-trips (as the nested container's
serialize/deserialize pair does), serializing row `i` — the element count as a
native unsigned integer followed by each element's bytes — and deserializing
those bytes into a freshly empty array column appends a row element-wise equal
to row `i`, and the returned position is exactly the suffix just past the
consumed bytes. -/
theorem C2_arena_roundtrip {α : Type} :
    ∀ (ser : α → List Nat) (deser : List Nat → Option (α × List Nat))
      (c : ColumnArray α) (i : Nat) (rest : List Nat),
      (∀ a tail, deser (ser a ++ tail) = some (a, tail)) →
      offsetsInv c → i < c.size → c.sizeAt i < OFFSET_MOD →
      ColumnArray.deserializeAndInsertFromArena ⟨[], []⟩ deser
          (c.serializeValueIntoArena ser i ++ rest) =
        some (⟨c.rowAt i, [c.sizeAt i]⟩, rest) ∧
      ColumnArray.rowAt ⟨c.rowAt i, [c.sizeAt i]⟩ 0 = c.rowAt i := by
  intro ser deser c i rest hrt hc hi hsz
  have hrl : (c.rowAt i).length = c.sizeAt i := rowAt_length c hc hi
  constructor
  · unfold ColumnArray.serializeValueIntoArena ColumnArray.deserializeAndInsertFromArena
    rw [List.append_assoc]
    have hlen8 : (toLEBytes 8 (c.sizeAt i)).length = 8 := toLEBytes_length 8 _
    have htake : (toLEBytes 8 (c.sizeAt i) ++ (serRow ser (c.rowAt i) ++ rest)).take 8
        = toLEBytes 8 (c.sizeAt i) := List.take_left' hlen8
    have hdrop : (toLEBytes 8 (c.sizeAt i) ++ (serRow ser (c.rowAt i) ++ rest)).drop 8
        = serRow ser (c.rowAt i) ++ rest := List.drop_left' hlen8
    have hfl : ¬ (toLEBytes 8 (c.sizeAt i) ++ (serRow ser (c.rowAt i) ++ rest)).length < 8 := by
      rw [List.length_append, hlen8]
      omega
    rw [if_neg hfl, htake, hdrop, fromLEBytes_toLEBytes]
    have hmod : c.sizeAt i % 256 ^ 8 = c.sizeAt i := by
      have h8 : (256 : Nat) ^ 8 = OFFSET_MOD := by norm_num [OFFSET_MOD]
      rw [h8]
      exact Nat.mod_eq_of_lt hsz
    rw [hmod, ← hrl, deserLoop_serRow ser deser hrt (c.rowAt i) [] rest]
    show some ((⟨[] ++ c.rowAt i, pushOffset [] (c.rowAt i).length⟩ : ColumnArray α), rest)
        = some ((⟨c.rowAt i, [(c.rowAt i).length]⟩ : ColumnArray α), rest)
    rw [List.nil_append, hrl]
    have hpe : pushOffset [] (c.sizeAt i) = [c.sizeAt i] := by
      show [(List.getLastD [] 0 + c.sizeAt i) % OFFSET_MOD] = [c.sizeAt i]
      rw [List.getLastD_nil, Nat.zero_add, Nat.mod_eq_of_lt hsz]
    rw [hpe]
  · show ((c.rowAt i).drop 0).take (c.sizeAt i) = c.rowAt i
    rw [List.drop_zero, ← hrl, List.take_length]

/-- C2 witness: the round-trip at row 2 of the concrete column with the
one-byte codec, with two trailing bytes left unconsumed. -/
theorem C2_arena_roundtrip_witness :
    ColumnArray.deserializeAndInsertFromArena (⟨[], []⟩ : ColumnArray Nat) deserOne
        (sampleCol.serializeValueIntoArena serOne 2 ++ [7, 7]) =
      some (⟨sampleCol.rowAt 2, [sampleCol.sizeAt 2]⟩, [7, 7]) ∧
    ColumnArray.rowAt ⟨sampleCol.rowAt 2, [sampleCol.sizeAt 2]⟩ 0 = sampleCol.rowAt 2 :=
  C2_arena_roundtrip serOne deserOne sampleCol 2 [7, 7]
    (fun a tail => rfl) (by decide) (by decide) (by decide)
